import Mathlib

/-
Verification of the extras-feasibility core of rules_python
(src/rules_python/piptool.py and src/rules_python/whl.py).

Python strings are embedded as lists of characters (Str).  Wheel metadata
(the contents of metadata.json inside the archive) is carried as fields of
the Wheel structure, since archive reading is an I/O boundary; the
derivations from the wheel FILENAME (distribution, version,
repository_name) are embedded from the source as functions of the path.
Environment-marker evaluation (pkg_resources.evaluate_marker, ambient
platform state) is carried as the precomputed boolean envOk on each
run_requires block.

The recursive feasibility check is_possible in piptool.py has no
termination guard, so it is embedded with an explicit fuel parameter:
a result of none means the recursion did not complete within the given
fuel, and a statement of the form "for every fuel the result is none"
shows the source function never returns on that input.
-/

/-- Python strings, embedded as lists of characters. -/
abbrev Str := List Char

/-- Coerce a Lean string literal to the embedding type. -/
def chars (s : String) : Str := s.data

/-- One block of the metadata run_requires list: an optional gating extra,
the (pre-evaluated) environment-marker result, and the raw requirement
entries. -/
structure RunRequire where
  extra : Option Str
  envOk : Bool
  requires : List Str
  deriving DecidableEq

/-- A wheel: the archive path plus the metadata fields the core reads
(metadata.json run_requires and extras). -/
structure Wheel where
  path : Str
  run_requires : List RunRequire
  extras : List Str
  deriving DecidableEq

/-- Split a list at every occurrence of a separator, like Python
str.split over a single character. -/
def splitOnChar (c : Char) : Str → List Str
  | [] => [[]]
  | x :: xs =>
    match splitOnChar c xs with
    | [] => [[x]]
    | h :: t => if x = c then [] :: h :: t else (x :: h) :: t

/-- os.path.basename: the final path component. -/
def Wheel.basename (w : Wheel) : Str := (splitOnChar '/' w.path).getLastD []

/-- Wheel.distribution: first dash-delimited field of the filename
(basename.split with a dash, index 0). -/
def Wheel.distribution (w : Wheel) : Str :=
  (splitOnChar '-' w.basename).headD []

/-- Wheel.version: second dash-delimited field of the filename.  The
source indexes parts with 1 and raises on malformed names (fewer than two
fields); malformed filenames are fatal and outside every claim, and the
embedding returns the empty string there. -/
def Wheel.version (w : Wheel) : Str :=
  (splitOnChar '-' w.basename).getD 1 []

/-- re.sub applied over the two characters dash and dot, replacing each
occurrence with an underscore. -/
def escapeDashDot (s : Str) : Str :=
  s.map (fun c => if c = '-' ∨ c = '.' then '_' else c)

/-- Wheel.repository_name: the canonical Bazel repository name
pypi__ then distribution, underscore, version, with dash and dot escaped
to underscore. -/
def Wheel.repository_name (w : Wheel) : Str :=
  escapeDashDot (chars "pypi__" ++ w.distribution ++ chars "_" ++ w.version)

/-- Python str.lower (ASCII case folding). -/
def lower (s : Str) : Str := s.map Char.toLower

/-- Python str.replace over the single character dash, replaced by
underscore. -/
def replaceDash (s : Str) : Str :=
  s.map (fun c => if c = '-' then '_' else c)

/-- The separator class of re.split in Wheel.dependencies:
space, greater, less, equals and the two parentheses. -/
def isDepSep (c : Char) : Bool :=
  c == ' ' || c == '>' || c == '<' || c == '=' || c == '(' || c == ')'

/-- parts of re.split at index 0: the prefix of the entry before the
first separator character (the dependency name with any trailing
versioning data stripped). -/
def stripVersioning (entry : Str) : Str :=
  entry.takeWhile (fun c => !isDepSep c)

/-- Wheel.dependencies: the requirement names of the run_requires blocks
matching the requested extra whose environment marker holds, each entry
stripped of trailing versioning data. -/
def Wheel.dependencies (w : Wheel) (extra : Option Str) : List Str :=
  (w.run_requires.filter (fun r => decide (r.extra = extra) && r.envOk)).flatMap
    (fun r => r.requires.map stripVersioning)

/-- Modelled interface of pkg_resources.Requirement.parse (external
library): the project name is the part of the dependency string before
the opening bracket. -/
def reqProjectName (s : Str) : Str := s.takeWhile (fun c => !(c == '['))

/-- Modelled interface of pkg_resources.Requirement.parse (external
library): the requested extras are the comma-separated names between the
brackets, empty when there is no bracket. -/
def reqExtrasOf (s : Str) : List Str :=
  match s.dropWhile (fun c => !(c == '[')) with
  | [] => []
  | _ :: rest => splitOnChar ',' (rest.takeWhile (fun c => !(c == ']')))

/-- Python truthiness of the extra argument of is_possible: None and the
empty string are both falsy. -/
def falsy : Option Str → Bool
  | none => true
  | some s => s.isEmpty

/-- The dict comprehension keyed by wheel.distribution() in
_make_wheel_to_extras; with duplicate keys the later wheel wins, as in a
Python dict comprehension. -/
def pypi_name_to_wheel (wheels : List Wheel) (name : Str) : Option Wheel :=
  wheels.reverse.find? (fun w => decide (w.distribution = name))

/-- The inner loop of is_possible over the requested extras of one parsed
dependency: each one must itself be possible. -/
def checkExtrasWith (f : Str → Option Str → Option Bool) (pn : Str) :
    List Str → Option Bool
  | [] => some true
  | e :: rest =>
    match f pn (some e) with
    | none => none
    | some false => some false
    | some true => checkExtrasWith f pn rest

/-- The loop of is_possible over the dependencies of an extra: parse each
entry, require the base distribution, then every requested extra. -/
def checkDepsWith (f : Str → Option Str → Option Bool) :
    List Str → Option Bool
  | [] => some true
  | d :: rest =>
    match f (reqProjectName d) none with
    | none => none
    | some false => some false
    | some true =>
      match checkExtrasWith f (reqProjectName d) (reqExtrasOf d) with
      | none => none
      | some false => some false
      | some true => checkDepsWith f rest

/-- is_possible from _make_wheel_to_extras, closed over the
name-to-wheel map.  The source recursion has no termination guard, so
the embedding takes fuel; none means the recursion did not complete
within that fuel. -/
def is_possible (ws : Str → Option Wheel) : Nat → Str → Option Str → Option Bool
  | 0, _, _ => none
  | fuel + 1, pypi_name, extra =>
    match ws (replaceDash pypi_name) with
    | none => some false
    | some wheel =>
      if falsy extra then some true
      else checkDepsWith (is_possible ws fuel) (wheel.dependencies extra)

/-- The list comprehension filtering one wheel's declared extras by
is_possible. -/
def possible_extras (ws : Str → Option Wheel) (fuel : Nat) (dist : Str) :
    List Str → Option (List Str)
  | [] => some []
  | e :: rest =>
    match is_possible ws fuel dist (some e) with
    | none => none
    | some b =>
      match possible_extras ws fuel dist rest with
      | none => none
      | some l => some (if b then e :: l else l)

/-- The outer dict comprehension of _make_wheel_to_extras, one entry per
wheel. -/
def wheel_extras_entries (ws : Str → Option Wheel) (fuel : Nat) :
    List Wheel → Option (List (Wheel × List Str))
  | [] => some []
  | w :: rest =>
    match possible_extras ws fuel w.distribution w.extras with
    | none => none
    | some es =>
      match wheel_extras_entries ws fuel rest with
      | none => none
      | some m => some ((w, es) :: m)

/-- _make_wheel_to_extras: the feasibility map from wheels to their
possible extras. -/
def make_wheel_to_extras (fuel : Nat) (wheels : List Wheel) :
    Option (List (Wheel × List Str)) :=
  wheel_extras_entries (pypi_name_to_wheel wheels) fuel wheels

/-- _make_wheel_name: namespace, underscore, repository name. -/
def make_wheel_name (reqs_repo_name : Str) (w : Wheel) : Str :=
  reqs_repo_name ++ chars "_" ++ w.repository_name

/-- The key of the unconditional library entry for a wheel in the
generated lookup tables: the lowercased distribution name. -/
def libKey (w : Wheel) : Str := lower w.distribution

/-- The key of the entry for one extra of a wheel in the generated lookup
tables: lowercased distribution, then the lowercased extra between an
opening and a closing bracket. -/
def extraKey (w : Wheel) (e : Str) : Str :=
  lower w.distribution ++ '[' :: (lower e ++ [']'])

/-- The _requirements table of _make_bzl_file_content: one library-view
entry per wheel plus one per possible extra. -/
def make_py_library_table (reqs_repo_name : Str) (wheels : List Wheel)
    (w2e : Wheel → List Str) : List (Str × Str) :=
  wheels.flatMap (fun w =>
    (libKey w, chars "@" ++ make_wheel_name reqs_repo_name w ++ chars "//:pkg") ::
    (w2e w).map (fun e =>
      (extraKey w e,
       chars "@" ++ make_wheel_name reqs_repo_name w ++ chars "//:" ++ lower e)))

/-- The _whl_requirements table of _make_bzl_file_content: one
file-group-view entry per wheel plus one per possible extra. -/
def make_whl_filegroup_table (reqs_repo_name : Str) (wheels : List Wheel)
    (w2e : Wheel → List Str) : List (Str × Str) :=
  wheels.flatMap (fun w =>
    (libKey w, chars "@" ++ make_wheel_name reqs_repo_name w ++ chars "//:whl") ::
    (w2e w).map (fun e =>
      (extraKey w e,
       chars "@" ++ make_wheel_name reqs_repo_name w ++ chars "//:" ++ lower e ++
         chars "_whl")))

/-- One generated whl_library registration: its repository name, archive
references and extras list (the textual join of the source template is a
rendering concern). -/
structure WhlLibraryRule where
  whl_repo_name : Str
  whls : List Str
  extras : List Str
  deriving DecidableEq

/-- _make_whl_library_rule, with the joined strings of the template kept
as lists. -/
def make_whl_library_rule (reqs_repo_name whl_repo_name : Str)
    (wheels : List Wheel) (extras : List Str) : WhlLibraryRule :=
  ⟨whl_repo_name,
   wheels.map (fun w => chars "@" ++ reqs_repo_name ++ chars "//:" ++ w.basename),
   extras⟩

/-- The abstract content of the generated requirements.bzl file: the
per-wheel registrations, the merged registration, the two lookup tables
and the two merged references.  Rendering this record to the textual
template is out of scope. -/
structure BzlContent where
  whl_library_rules : List WhlLibraryRule
  merged_whl_library_rule : WhlLibraryRule
  pypi_name_to_py_library : List (Str × Str)
  pypi_name_to_whl_filegroup : List (Str × Str)
  merged_py_library : Str
  merged_whl_filegroup : Str
  deriving DecidableEq

/-- _make_bzl_file_content.  none arises exactly when the source would
fail to produce the file: when the feasibility recursion never completes
(the fuel-indexed map is none), or when the wheel list is empty, in which
case the source reads the never-assigned local merged_whl_library_rule
and raises NameError. -/
def make_bzl_file_content (fuel : Nat) (reqs_repo_name : Str)
    (wheels : List Wheel) : Option BzlContent :=
  match make_wheel_to_extras fuel wheels with
  | none => none
  | some wheel_to_extras =>
    let w2e : Wheel → List Str := fun w =>
      ((wheel_to_extras.find? (fun p => decide (p.1 = w))).map Prod.snd).getD []
    if wheels.isEmpty then none
    else
      let merged_whl_repo_name := reqs_repo_name ++ chars "_merged"
      some
        ⟨wheels.map (fun w =>
            make_whl_library_rule reqs_repo_name
              (make_wheel_name reqs_repo_name w) [w] (w2e w)),
         make_whl_library_rule reqs_repo_name merged_whl_repo_name wheels [],
         make_py_library_table reqs_repo_name wheels w2e,
         make_whl_filegroup_table reqs_repo_name wheels w2e,
         chars "@" ++ merged_whl_repo_name ++ chars "//:pkg",
         chars "@" ++ merged_whl_repo_name ++ chars "//:whl"⟩

/-- Join a list of strings with a separator, like Python str.join. -/
def joinStr (sep : Str) (l : List Str) : Str := (l.intersperse sep).flatten

/-- The formatted text of the _EXTRA_TEMPLATE py_library declaration in
whl.py. -/
def format_extra (extra : Str) (w : Wheel) : Str :=
  chars "py_library(\n    name = \"" ++ extra ++
  chars "\",\n    deps = [\n        \":pkg\"," ++
  joinStr (chars ",")
    ((w.dependencies (some extra)).map
      (fun dep => chars "requirement(\"" ++ dep ++ chars "\")")) ++
  chars "\n    ],\n)\n"

/-- The formatted text of the _WHL_EXTRA_TEMPLATE filegroup declaration
in whl.py. -/
def format_whl_extra (extra : Str) (w : Wheel) : Str :=
  chars "filegroup(\n    name = \"" ++ extra ++
  chars "_whl\",\n    srcs = [\n        \":whl\"," ++
  joinStr (chars ",")
    ((w.dependencies (some extra)).map
      (fun dep => chars "pypi_whl_requirement(\"" ++ dep ++ chars "\")")) ++
  chars "\n    ],\n)\n"

/-- _make_extra in whl.py: returns the formatted py_library text. -/
def make_extra (extra : Str) (w : Wheel) : Option Str :=
  some (format_extra extra w)

/-- _make_whl_extra in whl.py: the body formats the filegroup template
but has no return statement, so the Python function returns None. -/
def make_whl_extra (extra : Str) (w : Wheel) : Option Str :=
  let _formatted := format_whl_extra extra w
  none

/-- Removal of one key from a working-set map. -/
def removeKey (ws : Str → Option Wheel) (k : Str) : Str → Option Wheel :=
  fun n => if n = k then none else ws n

/-- The key column of the generated lookup tables (both tables share it):
for each wheel the unconditional key followed by one key per possible
extra. -/
def tableKeys (wheels : List Wheel) (w2e : Wheel → List Str) : List Str :=
  wheels.flatMap (fun w => libKey w :: (w2e w).map (extraKey w))

/-- Wheel a, whose extra y requires extra z of wheel b (one half of a
pure dependency cycle). -/
def wheelA : Wheel :=
  ⟨chars "a-1-py2-none-any.whl", [⟨some (chars "y"), true, [chars "b[z]"]⟩],
   [chars "y"]⟩

/-- Wheel b, whose extra z requires extra y of wheel a (the other half of
the cycle). -/
def wheelB : Wheel :=
  ⟨chars "b-1-py2-none-any.whl", [⟨some (chars "z"), true, [chars "a[y]"]⟩],
   [chars "z"]⟩

/-- The cyclic working set of the spec scenario. -/
def cycWheels : List Wheel := [wheelA, wheelB]

/-- The name-to-wheel map of the cyclic working set. -/
def cycWS : Str → Option Wheel := pypi_name_to_wheel cycWheels

/-- A wheel whose distribution name has an upper-case letter. -/
def caseWheel : Wheel := ⟨chars "Foo-1-py2-none-any.whl", [], []⟩

/-- A wheel whose distribution name is the lower-cased form of
caseWheel's, at a different version. -/
def caseWheel2 : Wheel := ⟨chars "foo-2-py2-none-any.whl", [], []⟩

/-- A wheel whose distribution name contains a dot. -/
def dupWheelP : Wheel := ⟨chars "a.b-1-py2-none-any.whl", [], []⟩

/-- A distinct wheel whose distribution name contains an underscore in
place of the dot, so that the two repository names collide. -/
def dupWheelQ : Wheel := ⟨chars "a_b-1-py2-none-any.whl", [], []⟩

/-- A plain wheel with a dotted version, for the repository-name
computation. -/
def fooWheel : Wheel := ⟨chars "foo-1.0-py2-none-any.whl", [], []⟩

/-- A wheel whose metadata carries a requirement entry that begins with a
separator character. -/
def badEntryWheel : Wheel :=
  ⟨chars "c-1-x.whl", [⟨none, true, [chars "=foo"]⟩], []⟩

/-- A dependency-free wheel appa. -/
def wheelAppA : Wheel := ⟨chars "appa-1-py2-none-any.whl", [], []⟩

/-- A wheel appb whose extra x requires appa. -/
def wheelAppB : Wheel :=
  ⟨chars "appb-1-py2-none-any.whl", [⟨some (chars "x"), true, [chars "appa"]⟩],
   [chars "x"]⟩

/-- Occurrence count of one key in a key list. -/
def countOf (k : Str) (l : List Str) : Nat :=
  l.countP (fun s => decide (s = k))

/-- Claim C9: _make_whl_extra formats the filegroup template but returns
no value, so the file-group declaration text of an extra never reaches
the generated output. -/
theorem c9_make_whl_extra_returns_none :
    ∀ (extra : Str) (w : Wheel), make_whl_extra extra w = none :=
  fun _ _ => rfl

/-- Claim C10 (confirmed): is_possible treats the empty-string extra like
no extra: when the dash-normalized name is present in the working set it
returns true at once, for every fuel bound, without examining any
dependency metadata. -/
theorem c10_empty_extra_is_unconditional (ws : Str → Option Wheel)
    (fuel : Nat) (name : Str)
    (h : (ws (replaceDash name)).isSome = true) :
    is_possible ws (fuel + 1) name (some []) = some true ∧
      is_possible ws (fuel + 1) name none = some true := by
  obtain ⟨w, hw⟩ := Option.isSome_iff_exists.mp h
  constructor <;> simp [is_possible, hw, falsy]

/-- Witness for C10 at a concrete working set. -/
theorem c10_empty_extra_is_unconditional_witness :
    ((pypi_name_to_wheel [fooWheel] (replaceDash (chars "foo"))).isSome = true) ∧
      (is_possible (pypi_name_to_wheel [fooWheel]) 1 (chars "foo")
          (some []) = some true ∧
        is_possible (pypi_name_to_wheel [fooWheel]) 1 (chars "foo")
          none = some true) :=
  ⟨by decide,
   c10_empty_extra_is_unconditional (pypi_name_to_wheel [fooWheel]) 0
     (chars "foo") (by decide)⟩

/-- Counterexample to claim C4 as stated: is_possible does not case-fold;
the upper-case query finds the wheel while the lower-case one does not,
so two names differing only in letter case resolve differently. -/
theorem c4_counterexample :
    is_possible (pypi_name_to_wheel [caseWheel]) 1 (chars "Foo") none =
        some true ∧
      is_possible (pypi_name_to_wheel [caseWheel]) 1 (chars "foo") none =
        some false := by decide

/-- Claim C4 as amended: is_possible normalizes the queried name only by
replacing dash with underscore (no case folding), and returns false
whenever the normalized name is not a key of the working set. -/
theorem c4_absent_normalized_name_returns_false (ws : Str → Option Wheel)
    (fuel : Nat) (name : Str) (extra : Option Str)
    (habs : ws (replaceDash name) = none) :
    is_possible ws (fuel + 1) name extra = some false := by
  simp [is_possible, habs]

/-- Witness for the amended C4 at a concrete working set. -/
theorem c4_absent_normalized_name_returns_false_witness :
    (pypi_name_to_wheel [caseWheel] (replaceDash (chars "bar-baz")) = none) ∧
      is_possible (pypi_name_to_wheel [caseWheel]) 1 (chars "bar-baz") none =
        some false :=
  ⟨by decide,
   c4_absent_normalized_name_returns_false (pypi_name_to_wheel [caseWheel]) 0
     (chars "bar-baz") none (by decide)⟩

/-- Counterexample to claim C7 as stated: the repository identifier is
not distributionName_version with dot and dash escaped; the source
prefixes the canonical name with pypi__. -/
theorem c7_counterexample :
    fooWheel.repository_name ≠
        escapeDashDot (fooWheel.distribution ++ chars "_" ++ fooWheel.version) ∧
      fooWheel.repository_name = chars "pypi__foo_1_0" := by decide

/-- Claim C7 as amended: the repository identifier is the string pypi__
followed by the distribution name, an underscore and the version, each
with every dot and dash replaced by underscore, and the external
repository target is that identifier prefixed by the namespace and an
underscore. -/
theorem c7_repository_identifier_shape (w : Wheel) (reqs_repo_name : Str) :
    w.repository_name =
        chars "pypi__" ++ escapeDashDot w.distribution ++ chars "_" ++
          escapeDashDot w.version ∧
      make_wheel_name reqs_repo_name w =
        reqs_repo_name ++ chars "_" ++ w.repository_name := by
  refine ⟨?_, rfl⟩
  simp only [Wheel.repository_name, escapeDashDot, List.map_append]
  rfl

/-- Counterexample to claim C3 as stated: two distinct wheels whose
repository identifiers coincide do not abort the generation run; the
bzl-file content is still produced. -/
theorem c3_counterexample :
    dupWheelP ≠ dupWheelQ ∧
      dupWheelP.repository_name = dupWheelQ.repository_name ∧
      (make_bzl_file_content 1 (chars "pip_deps")
          [dupWheelP, dupWheelQ]).isSome = true := by decide

/-- Claim C3 as amended: duplicate repository identifiers are not
detected at all: whenever the feasibility computation completes, the
generation of a two-wheel set produces its output even if the two
repository identifiers coincide (the collision is silently carried into
the generated content). -/
theorem c3_duplicate_repository_ids_not_detected (fuel : Nat)
    (reqs_repo_name : Str) (w1 w2 : Wheel)
    (hdup : w1.repository_name = w2.repository_name)
    (hfeas : (make_wheel_to_extras fuel [w1, w2]).isSome = true) :
    (make_bzl_file_content fuel reqs_repo_name [w1, w2]).isSome = true := by
  obtain ⟨m, hm⟩ := Option.isSome_iff_exists.mp hfeas
  simp [make_bzl_file_content, hm]

/-- Witness for the amended C3 at the concrete colliding pair. -/
theorem c3_duplicate_repository_ids_not_detected_witness :
    (dupWheelP.repository_name = dupWheelQ.repository_name ∧
        (make_wheel_to_extras 1 [dupWheelP, dupWheelQ]).isSome = true) ∧
      (make_bzl_file_content 1 (chars "pip")
          [dupWheelP, dupWheelQ]).isSome = true :=
  ⟨⟨by decide, by decide⟩,
   c3_duplicate_repository_ids_not_detected 1 (chars "pip") dupWheelP dupWheelQ
     (by decide) (by decide)⟩

/-- Counterexample to claim C8 as stated: a requirement entry that begins
with a separator character yields the empty string as a dependency
name. -/
theorem c8_counterexample :
    badEntryWheel.dependencies none = [([] : Str)] := by decide

/-- Claim C8 as amended: every name yielded by Wheel.dependencies is the
corresponding requirement entry truncated before its first
version/environment qualifier character, and it is empty exactly when
the entry itself is empty or begins with a qualifier character (no
emptiness guard exists in the source). -/
theorem c8_dependency_names_are_truncated_entries (w : Wheel)
    (extra : Option Str) (d : Str) (hd : d ∈ w.dependencies extra) :
    ∃ r ∈ w.run_requires, r.extra = extra ∧ r.envOk = true ∧
      ∃ entry ∈ r.requires, d = stripVersioning entry ∧
        (d = [] ↔ entry = [] ∨ ∃ c l, entry = c :: l ∧ isDepSep c = true) := by
  simp only [Wheel.dependencies, List.mem_flatMap, List.mem_filter,
    List.mem_map, Bool.and_eq_true, decide_eq_true_eq] at hd
  obtain ⟨r, ⟨hr, hex, hok⟩, entry, hentry, hde⟩ := hd
  refine ⟨r, hr, hex, hok, entry, hentry, hde.symm, ?_⟩
  subst hde
  cases entry with
  | nil => simp [stripVersioning]
  | cons c l =>
    by_cases hc : isDepSep c = true
    · constructor
      · intro _
        exact Or.inr ⟨c, l, rfl, hc⟩
      · intro _
        simp [stripVersioning, List.takeWhile_cons, hc]
    · constructor
      · intro habs
        simp [stripVersioning, List.takeWhile_cons, hc] at habs
      · rintro (h | ⟨c2, l2, heq, hsep⟩)
        · exact absurd h (List.cons_ne_nil c l)
        · cases heq
          exact absurd hsep hc

/-- Witness for the amended C8 at a concrete wheel. -/
theorem c8_dependency_names_are_truncated_entries_witness :
    (([] : Str) ∈ badEntryWheel.dependencies none) ∧
      ∃ r ∈ badEntryWheel.run_requires, r.extra = none ∧ r.envOk = true ∧
        ∃ entry ∈ r.requires, ([] : Str) = stripVersioning entry ∧
          (([] : Str) = [] ↔ entry = [] ∨
            ∃ c l, entry = c :: l ∧ isDepSep c = true) :=
  ⟨by decide,
   c8_dependency_names_are_truncated_entries badEntryWheel none [] (by decide)⟩

/-- A one-dependency list makes checkDepsWith hang exactly when the base
distribution resolves but the extras check hangs. -/
theorem checkDepsWith_single_none (f : Str → Option Str → Option Bool)
    (d : Str) (h1 : f (reqProjectName d) none = some true)
    (h2 : checkExtrasWith f (reqProjectName d) (reqExtrasOf d) = none) :
    checkDepsWith f [d] = none := by
  simp only [checkDepsWith, h1, h2]

/-- A one-extra list makes checkExtrasWith hang when the query for that
extra hangs. -/
theorem checkExtrasWith_single_none (f : Str → Option Str → Option Bool)
    (pn e : Str) (h : f pn (some e) = none) :
    checkExtrasWith f pn [e] = none := by
  simp only [checkExtrasWith, h]

/-- On the pure two-wheel cycle, neither cyclic query ever completes,
whatever the fuel: the source recursion never returns. -/
theorem cyc_pair (n : Nat) :
    is_possible cycWS n (chars "a") (some (chars "y")) = none ∧
      is_possible cycWS n (chars "b") (some (chars "z")) = none := by
  induction n with
  | zero => exact ⟨rfl, rfl⟩
  | succ m ih =>
    cases m with
    | zero => exact ⟨rfl, rfl⟩
    | succ k =>
      obtain ⟨iha, ihb⟩ := ih
      constructor
      · show checkDepsWith (is_possible cycWS (k + 1))
          (wheelA.dependencies (some (chars "y"))) = none
        have e0 : wheelA.dependencies (some (chars "y")) = [chars "b[z]"] := rfl
        rw [e0]
        apply checkDepsWith_single_none
        · rfl
        · have e1 : reqProjectName (chars "b[z]") = chars "b" := rfl
          have e2 : reqExtrasOf (chars "b[z]") = [chars "z"] := rfl
          rw [e1, e2]
          exact checkExtrasWith_single_none _ _ _ ihb
      · show checkDepsWith (is_possible cycWS (k + 1))
          (wheelB.dependencies (some (chars "z"))) = none
        have e0 : wheelB.dependencies (some (chars "z")) = [chars "a[y]"] := rfl
        rw [e0]
        apply checkDepsWith_single_none
        · rfl
        · have e1 : reqProjectName (chars "a[y]") = chars "a" := rfl
          have e2 : reqExtrasOf (chars "a[y]") = [chars "y"] := rfl
          rw [e1, e2]
          exact checkExtrasWith_single_none _ _ _ iha

/-- Claim C1: on a working set whose extras form a pure cycle (a's extra
y requires b's extra z and conversely), is_possible never returns false:
it never returns at all — the result stays none at every fuel bound,
refuting the claimed conservative cycle-breaking. -/
theorem c1_cyclic_extra_query_never_returns (fuel : Nat) :
    is_possible cycWS fuel (chars "a") (some (chars "y")) = none :=
  (cyc_pair fuel).1

/-- Claim C2: the whole feasibility computation of the cyclic working
set never completes at any fuel bound: _make_wheel_to_extras recurses
unboundedly instead of terminating. -/
theorem c2_feasibility_computation_never_completes (fuel : Nat) :
    make_wheel_to_extras fuel cycWheels = none := by
  have hpe : possible_extras cycWS fuel wheelA.distribution wheelA.extras =
      none := by
    show possible_extras cycWS fuel (chars "a") [chars "y"] = none
    simp only [possible_extras, (cyc_pair fuel).1]
  show wheel_extras_entries cycWS fuel cycWheels = none
  simp only [cycWheels, wheel_extras_entries, hpe]

/-- Pointwise true-monotonicity lifts through the extras loop. -/
theorem checkExtrasWith_mono (f g : Str → Option Str → Option Bool)
    (hfg : ∀ n e, f n e = some true → g n e = some true) (pn : Str) :
    ∀ l, checkExtrasWith f pn l = some true →
      checkExtrasWith g pn l = some true := by
  intro l
  induction l with
  | nil => intro _; rfl
  | cons e rest ih =>
    intro h
    cases hf : f pn (some e) with
    | none => simp [checkExtrasWith, hf] at h
    | some b =>
      cases b with
      | false => simp [checkExtrasWith, hf] at h
      | true =>
        simp only [checkExtrasWith, hf] at h
        simp only [checkExtrasWith, hfg pn (some e) hf]
        exact ih h

/-- Pointwise true-monotonicity lifts through the dependency loop. -/
theorem checkDepsWith_mono (f g : Str → Option Str → Option Bool)
    (hfg : ∀ n e, f n e = some true → g n e = some true) :
    ∀ l, checkDepsWith f l = some true → checkDepsWith g l = some true := by
  intro l
  induction l with
  | nil => intro _; rfl
  | cons d rest ih =>
    intro h
    cases hf : f (reqProjectName d) none with
    | none => simp [checkDepsWith, hf] at h
    | some b =>
      cases b with
      | false => simp [checkDepsWith, hf] at h
      | true =>
        simp only [checkDepsWith, hf] at h
        cases hx : checkExtrasWith f (reqProjectName d) (reqExtrasOf d) with
        | none => simp [hx] at h
        | some b2 =>
          cases b2 with
          | false => simp [hx] at h
          | true =>
            simp only [hx] at h
            simp only [checkDepsWith, hfg _ _ hf,
              checkExtrasWith_mono f g hfg _ _ hx]
            exact ih h

/-- is_possible is monotone in the working-set map: growing the map (in
the submap order) can only add true results, never lose them. -/
theorem is_possible_mono (fuel : Nat) (ws ws' : Str → Option Wheel)
    (hsub : ∀ n w, ws' n = some w → ws n = some w) (name : Str)
    (extra : Option Str) (h : is_possible ws' fuel name extra = some true) :
    is_possible ws fuel name extra = some true := by
  induction fuel generalizing name extra with
  | zero => exact absurd h (by simp [is_possible])
  | succ m ih =>
    cases hw : ws' (replaceDash name) with
    | none => simp [is_possible, hw] at h
    | some wheel =>
      have hws : ws (replaceDash name) = some wheel := hsub _ _ hw
      cases hfal : falsy extra with
      | true => simp [is_possible, hws, hfal]
      | false =>
        simp only [is_possible, hw, hfal, Bool.false_eq_true, if_false] at h
        simp only [is_possible, hws, hfal, Bool.false_eq_true, if_false]
        exact checkDepsWith_mono (is_possible ws' m) (is_possible ws m)
          (fun n e => ih n e) _ h

/-- Claim C5: removing any wheel from the working set can only turn
is_possible results from true to false, never from false to true: a
query that is true after the removal was already true before it. -/
theorem c5_is_possible_monotone_under_removal (ws : Str → Option Wheel)
    (k : Str) (fuel : Nat) (name : Str) (extra : Option Str)
    (h : is_possible (removeKey ws k) fuel name extra = some true) :
    is_possible ws fuel name extra = some true := by
  apply is_possible_mono fuel ws (removeKey ws k) _ name extra h
  intro n w hn
  by_cases hk : n = k
  · simp [removeKey, hk] at hn
  · simpa [removeKey, hk] using hn

/-- Witness for C5: a concrete two-wheel set where the query stays true
after removing an unrelated key. -/
theorem c5_is_possible_monotone_under_removal_witness :
    (is_possible (removeKey (pypi_name_to_wheel [wheelAppA, wheelAppB])
          (chars "zzz")) 2 (chars "appb") (some (chars "x")) = some true) ∧
      is_possible (pypi_name_to_wheel [wheelAppA, wheelAppB]) 2
        (chars "appb") (some (chars "x")) = some true :=
  ⟨by decide,
   c5_is_possible_monotone_under_removal
     (pypi_name_to_wheel [wheelAppA, wheelAppB]) (chars "zzz") 2
     (chars "appb") (some (chars "x")) (by decide)⟩


theorem countOf_append (k : Str) (l1 l2 : List Str) :
    countOf k (l1 ++ l2) = countOf k l1 + countOf k l2 := by
  simp [countOf]

theorem countOf_eq_zero {k : Str} {l : List Str} (h : ∀ s ∈ l, s ≠ k) :
    countOf k l = 0 := by
  simp only [countOf, List.countP_eq_zero, decide_eq_true_eq]
  exact h

theorem countOf_eq_one_of_nodup {k : Str} {l : List Str} (hn : l.Nodup)
    (hm : k ∈ l) : countOf k l = 1 := by
  induction l with
  | nil => cases hm
  | cons a rest ih =>
    rw [List.nodup_cons] at hn
    rcases List.mem_cons.mp hm with rfl | hmem
    · have h0 : countOf k rest = 0 :=
        countOf_eq_zero (fun s hs hsk => hn.1 (hsk ▸ hs))
      rw [countOf, List.countP_cons]
      rw [countOf] at h0
      rw [h0]
      simp
    · have hka : a ≠ k := fun hk => hn.1 (hk ▸ hmem)
      rw [countOf, List.countP_cons]
      rw [countOf] at ih
      rw [ih hn.2 hmem]
      simp [hka]

theorem lbrack_mem_extraKey (w : Wheel) (e : Str) : '[' ∈ extraKey w e :=
  List.mem_append_right _ (List.mem_cons_self _ _)

/-- Splitting at the first occurrence of a marker element is injective. -/
theorem append_cons_inj {α : Type} {a : α} :
    ∀ {l1 l2 r1 r2 : List α}, a ∉ l1 → a ∉ l2 →
      l1 ++ a :: r1 = l2 ++ a :: r2 → l1 = l2 ∧ r1 = r2 := by
  intro l1
  induction l1 with
  | nil =>
    intro l2 r1 r2 _ h2 h
    cases l2 with
    | nil => exact ⟨rfl, (List.cons.inj h).2⟩
    | cons c t =>
      exfalso
      have hc := (List.cons.inj h).1
      exact h2 (hc ▸ List.mem_cons_self c t)
  | cons c t ih =>
    intro l2 r1 r2 h1 h2 h
    cases l2 with
    | nil =>
      exfalso
      have hc := (List.cons.inj h).1
      exact h1 (hc.symm ▸ List.mem_cons_self c t)
    | cons c2 t2 =>
      obtain ⟨hc, ht⟩ := List.cons.inj h
      have h1t : a ∉ t := fun hm => h1 (List.mem_cons_of_mem c hm)
      have h2t : a ∉ t2 := fun hm => h2 (List.mem_cons_of_mem c2 hm)
      obtain ⟨he, hr⟩ := ih h1t h2t ht
      exact ⟨by rw [hc, he], hr⟩

theorem extraKey_inj {x w : Wheel} {e2 e : Str}
    (hx : '[' ∉ lower x.distribution) (hw : '[' ∉ lower w.distribution)
    (h : extraKey x e2 = extraKey w e) :
    lower x.distribution = lower w.distribution ∧ lower e2 = lower e := by
  obtain ⟨h1, h2⟩ := append_cons_inj hx hw h
  exact ⟨h1, (List.append_left_inj _).mp h2⟩

theorem libKey_ne_extraKey {x w : Wheel} {e : Str} (h : '[' ∉ libKey x) :
    libKey x ≠ extraKey w e :=
  fun he => h (he ▸ lbrack_mem_extraKey w e)

/-- tableKeys distributes over list append. -/
theorem tableKeys_append (u v : List Wheel) (w2e : Wheel → List Str) :
    tableKeys (u ++ v) w2e = tableKeys u w2e ++ tableKeys v w2e := by
  simp [tableKeys]

/-- tableKeys of a cons: the wheel's own block followed by the rest. -/
theorem tableKeys_cons (x : Wheel) (v : List Wheel) (w2e : Wheel → List Str) :
    tableKeys (x :: v) w2e =
      (libKey x :: (w2e x).map (extraKey x)) ++ tableKeys v w2e := by
  simp [tableKeys]

/-- The key column of the library-view table is tableKeys. -/
theorem py_table_keys (n : Str) (wheels : List Wheel) (w2e : Wheel → List Str) :
    (make_py_library_table n wheels w2e).map Prod.fst = tableKeys wheels w2e := by
  induction wheels with
  | nil => rfl
  | cons x rest ih =>
    simp only [make_py_library_table, tableKeys, List.flatMap_cons,
      List.map_append, List.map_cons, List.map_map, Function.comp,
      List.cons_append] at ih ⊢
    rw [ih]
    rfl

/-- The key column of the file-group-view table is also tableKeys. -/
theorem whl_table_keys (n : Str) (wheels : List Wheel) (w2e : Wheel → List Str) :
    (make_whl_filegroup_table n wheels w2e).map Prod.fst =
      tableKeys wheels w2e := by
  induction wheels with
  | nil => rfl
  | cons x rest ih =>
    simp only [make_whl_filegroup_table, tableKeys, List.flatMap_cons,
      List.map_append, List.map_cons, List.map_map, Function.comp,
      List.cons_append] at ih ⊢
    rw [ih]
    rfl

/-- No key of the shape of another wheel's block matches the
unconditional key of w when all lowercased distribution names differ
from w's and w's contains no bracket. -/
theorem countOf_libKey_tableKeys_zero {w : Wheel} (hk : '[' ∉ libKey w)
    (w2e : Wheel → List Str) :
    ∀ ws', (∀ x ∈ ws', libKey x ≠ libKey w) →
      countOf (libKey w) (tableKeys ws' w2e) = 0 := by
  intro ws' hne
  apply countOf_eq_zero
  intro s hs
  simp only [tableKeys, List.mem_flatMap, List.mem_cons, List.mem_map] at hs
  obtain ⟨x, hx, hcase⟩ := hs
  rcases hcase with rfl | ⟨e, _, rfl⟩
  · exact hne x hx
  · intro heq
    exact hk (heq ▸ lbrack_mem_extraKey x e)

/-- No key in the blocks of wheels with different lowercased
distribution names matches an extra key of w. -/
theorem countOf_extraKey_tableKeys_zero {w : Wheel} {e : Str}
    (hwb : '[' ∉ lower w.distribution) (w2e : Wheel → List Str) :
    ∀ ws', (∀ x ∈ ws', '[' ∉ lower x.distribution) →
      (∀ x ∈ ws', lower x.distribution ≠ lower w.distribution) →
      countOf (extraKey w e) (tableKeys ws' w2e) = 0 := by
  intro ws' hxb hne
  apply countOf_eq_zero
  intro s hs
  simp only [tableKeys, List.mem_flatMap, List.mem_cons, List.mem_map] at hs
  obtain ⟨x, hx, hcase⟩ := hs
  rcases hcase with rfl | ⟨e2, _, rfl⟩
  · exact libKey_ne_extraKey (hxb x hx)
  · intro heq
    exact hne x hx (extraKey_inj (hxb x hx) hwb heq).1

/-- The unconditional key occurs exactly once in its own wheel block. -/
theorem countOf_libKey_block {w : Wheel} (hk : '[' ∉ libKey w)
    (es : List Str) :
    countOf (libKey w) (libKey w :: es.map (extraKey w)) = 1 := by
  have h0 : countOf (libKey w) (es.map (extraKey w)) = 0 := by
    apply countOf_eq_zero
    intro s hs
    obtain ⟨e, _, rfl⟩ := List.mem_map.mp hs
    exact Ne.symm (libKey_ne_extraKey hk)
  rw [countOf, List.countP_cons]
  rw [countOf] at h0
  rw [h0]
  simp

/-- In its own wheel block, an extra key occurs as often as the
lowercased extra occurs among the lowercased table extras. -/
theorem countOf_extraKey_block {w : Wheel}
    (hwb : '[' ∉ lower w.distribution) (es : List Str) (e : Str) :
    countOf (extraKey w e) (libKey w :: es.map (extraKey w)) =
      countOf (lower e) (es.map lower) := by
  rw [countOf, List.countP_cons]
  have hhead : (decide (libKey w = extraKey w e)) = false := by
    simp only [decide_eq_false_iff_not]
    exact libKey_ne_extraKey hwb
  rw [hhead]
  simp only [Bool.false_eq_true, if_false, Nat.add_zero]
  rw [List.countP_map, countOf, List.countP_map]
  apply List.countP_congr
  intro a _
  simp only [Function.comp_apply, decide_eq_true_eq]
  constructor
  · intro h
    exact (extraKey_inj hwb hwb h).2
  · intro h
    show lower w.distribution ++ '[' :: (lower a ++ [']']) = _
    rw [h]
    rfl

/-- The unconditional key of a member wheel occurs exactly once in the
whole key column, provided the lowercased distribution names are
pairwise distinct and bracket-free. -/
theorem countOf_tableKeys_libKey (wheels : List Wheel)
    (w2e : Wheel → List Str)
    (h1 : (wheels.map (fun x => lower x.distribution)).Nodup)
    (h2 : ∀ x ∈ wheels, '[' ∉ lower x.distribution)
    (w : Wheel) (hw : w ∈ wheels) :
    countOf (libKey w) (tableKeys wheels w2e) = 1 := by
  obtain ⟨l1, l2, rfl⟩ := List.append_of_mem hw
  have hk : '[' ∉ libKey w := h2 w (by simp)
  rw [List.map_append, List.map_cons, List.nodup_append] at h1
  obtain ⟨h1a, h1b, hdisj⟩ := h1
  rw [List.nodup_cons] at h1b
  have hne1 : ∀ x ∈ l1, libKey x ≠ libKey w := by
    intro x hx heq
    have hxw : lower x.distribution = lower w.distribution := heq
    exact hdisj (List.mem_map_of_mem _ hx)
      (by rw [hxw]; exact List.mem_cons_self _ _)
  have hne2 : ∀ x ∈ l2, libKey x ≠ libKey w := by
    intro x hx heq
    have hxw : lower x.distribution = lower w.distribution := heq
    exact h1b.1 (hxw ▸ List.mem_map_of_mem _ hx)
  rw [tableKeys_append, tableKeys_cons, countOf_append, countOf_append,
    countOf_libKey_tableKeys_zero hk w2e l1 hne1,
    countOf_libKey_tableKeys_zero hk w2e l2 hne2,
    countOf_libKey_block hk]

/-- The extra key of a member wheel occurs in the whole key column as
often as its lowercased form occurs among that wheel's table extras. -/
theorem countOf_tableKeys_extraKey (wheels : List Wheel)
    (w2e : Wheel → List Str)
    (h1 : (wheels.map (fun x => lower x.distribution)).Nodup)
    (h2 : ∀ x ∈ wheels, '[' ∉ lower x.distribution)
    (w : Wheel) (hw : w ∈ wheels) (e : Str) :
    countOf (extraKey w e) (tableKeys wheels w2e) =
      countOf (lower e) ((w2e w).map lower) := by
  obtain ⟨l1, l2, rfl⟩ := List.append_of_mem hw
  have hwb : '[' ∉ lower w.distribution := h2 w (by simp)
  have hb1 : ∀ x ∈ l1, '[' ∉ lower x.distribution :=
    fun x hx => h2 x (by simp [hx])
  have hb2 : ∀ x ∈ l2, '[' ∉ lower x.distribution :=
    fun x hx => h2 x (by simp [hx])
  rw [List.map_append, List.map_cons, List.nodup_append] at h1
  obtain ⟨h1a, h1b, hdisj⟩ := h1
  rw [List.nodup_cons] at h1b
  have hne1 : ∀ x ∈ l1, lower x.distribution ≠ lower w.distribution := by
    intro x hx heq
    exact hdisj (List.mem_map_of_mem _ hx)
      (by rw [heq]; exact List.mem_cons_self _ _)
  have hne2 : ∀ x ∈ l2, lower x.distribution ≠ lower w.distribution := by
    intro x hx heq
    exact h1b.1 (heq ▸ List.mem_map_of_mem _ hx)
  rw [tableKeys_append, tableKeys_cons, countOf_append, countOf_append,
    countOf_extraKey_tableKeys_zero hwb w2e l1 hb1 hne1,
    countOf_extraKey_tableKeys_zero hwb w2e l2 hb2 hne2,
    countOf_extraKey_block hwb]
  omega

/-- Under the distinctness hypotheses the whole key column is free of
duplicates. -/
theorem tableKeys_nodup (wheels : List Wheel) (w2e : Wheel → List Str)
    (h1 : (wheels.map (fun x => lower x.distribution)).Nodup)
    (h2 : ∀ x ∈ wheels, '[' ∉ lower x.distribution)
    (h3 : ∀ x ∈ wheels, ((w2e x).map lower).Nodup) :
    (tableKeys wheels w2e).Nodup := by
  induction wheels with
  | nil => simp [tableKeys]
  | cons x rest ih =>
    rw [List.map_cons, List.nodup_cons] at h1
    have hx : x ∈ x :: rest := List.mem_cons_self _ _
    have hxb : '[' ∉ lower x.distribution := h2 x hx
    rw [tableKeys_cons, List.nodup_append]
    refine ⟨?_, ih h1.2 (fun y hy => h2 y (List.mem_cons_of_mem x hy))
      (fun y hy => h3 y (List.mem_cons_of_mem x hy)), ?_⟩
    · rw [List.nodup_cons]
      constructor
      · intro hmem
        obtain ⟨e, _, heq⟩ := List.mem_map.mp hmem
        exact libKey_ne_extraKey hxb heq.symm
      · apply List.Nodup.map_on
        · intro e1 he1 e2 he2 heq
          exact List.inj_on_of_nodup_map (h3 x hx) he1 he2
            (extraKey_inj hxb hxb heq).2
        · exact List.Nodup.of_map lower (h3 x hx)
    · intro a ha har
      rcases List.mem_cons.mp ha with rfl | hamem
      · simp only [tableKeys, List.mem_flatMap, List.mem_cons,
          List.mem_map] at har
        obtain ⟨y, hy, hcase⟩ := har
        rcases hcase with heq | ⟨e2, _, heq⟩
        · have hxy : lower y.distribution = lower x.distribution := heq.symm
          exact h1.1 (hxy ▸ List.mem_map_of_mem _ hy)
        · exact libKey_ne_extraKey hxb heq.symm
      · obtain ⟨e, he, rfl⟩ := List.mem_map.mp hamem
        simp only [tableKeys, List.mem_flatMap, List.mem_cons,
          List.mem_map] at har
        obtain ⟨y, hy, hcase⟩ := har
        have hyb : '[' ∉ lower y.distribution :=
          h2 y (List.mem_cons_of_mem x hy)
        rcases hcase with heq | ⟨e2, _, heq⟩
        · exact libKey_ne_extraKey hyb heq.symm
        · have hd := (extraKey_inj hyb hxb heq).1
          exact h1.1 (hd ▸ List.mem_map_of_mem _ hy)

/-- Counterexample to claim C6 as stated: with two wheels whose
distribution names differ only in letter case, both packages are in the
working set but the generated library-view table carries their
unconditional capability under the same key twice — not exactly one
entry, and a duplicate key. -/
theorem c6_counterexample :
    caseWheel.distribution ≠ caseWheel2.distribution ∧
      (make_bzl_file_content 1 (chars "pip")
          [caseWheel, caseWheel2]).map
        (fun c => countOf (libKey caseWheel)
          (c.pypi_name_to_py_library.map Prod.fst)) = some 2 := by decide

/-- Claim C6 as amended: provided the wheels' lowercased distribution
names are pairwise distinct and bracket-free and each wheel's declared
extras are duplicate-free after lowercasing, both lookup tables carry
exactly one entry for each wheel's unconditional capability, exactly one
entry per extra of its feasibility row, no entry for a declared extra
absent from that row, and no duplicate keys at all. -/
theorem c6_capability_tables_complete (reqs_repo_name : Str)
    (wheels : List Wheel) (w2e : Wheel → List Str)
    (h1 : (wheels.map (fun x => lower x.distribution)).Nodup)
    (h2 : ∀ x ∈ wheels, '[' ∉ lower x.distribution)
    (h3 : ∀ x ∈ wheels, (x.extras.map lower).Nodup)
    (h4 : ∀ x ∈ wheels, (w2e x).Sublist x.extras)
    (w : Wheel) (hw : w ∈ wheels) :
    (countOf (libKey w)
        ((make_py_library_table reqs_repo_name wheels w2e).map Prod.fst) = 1 ∧
      countOf (libKey w)
        ((make_whl_filegroup_table reqs_repo_name wheels w2e).map Prod.fst) = 1) ∧
    (∀ e ∈ w2e w,
      countOf (extraKey w e)
          ((make_py_library_table reqs_repo_name wheels w2e).map Prod.fst) = 1 ∧
        countOf (extraKey w e)
          ((make_whl_filegroup_table reqs_repo_name wheels w2e).map
            Prod.fst) = 1) ∧
    (∀ e ∈ w.extras, e ∉ w2e w →
      countOf (extraKey w e)
          ((make_py_library_table reqs_repo_name wheels w2e).map Prod.fst) = 0 ∧
        countOf (extraKey w e)
          ((make_whl_filegroup_table reqs_repo_name wheels w2e).map
            Prod.fst) = 0) ∧
    ((make_py_library_table reqs_repo_name wheels w2e).map Prod.fst).Nodup ∧
    ((make_whl_filegroup_table reqs_repo_name wheels w2e).map Prod.fst).Nodup := by
  simp only [py_table_keys, whl_table_keys]
  have hmlnodup : ((w2e w).map lower).Nodup :=
    List.Nodup.sublist ((h4 w hw).map lower) (h3 w hw)
  have hlib := countOf_tableKeys_libKey wheels w2e h1 h2 w hw
  have hextra := countOf_tableKeys_extraKey wheels w2e h1 h2 w hw
  have hnodup := tableKeys_nodup wheels w2e h1 h2
    (fun x hx => List.Nodup.sublist ((h4 x hx).map lower) (h3 x hx))
  refine ⟨⟨hlib, hlib⟩, fun e he => ?_, fun e hdecl hne => ?_, hnodup, hnodup⟩
  · have h1e : countOf (lower e) ((w2e w).map lower) = 1 :=
      countOf_eq_one_of_nodup hmlnodup (List.mem_map_of_mem lower he)
    rw [hextra e, h1e]
    exact ⟨rfl, rfl⟩
  · have h0e : countOf (lower e) ((w2e w).map lower) = 0 := by
      apply countOf_eq_zero
      intro s hs
      obtain ⟨e2, he2, rfl⟩ := List.mem_map.mp hs
      intro heq
      have he2d : e2 ∈ w.extras := (h4 w hw).subset he2
      have : e2 = e := List.inj_on_of_nodup_map (h3 w hw) he2d hdecl heq
      exact hne (this ▸ he2)
    rw [hextra e, h0e]
    exact ⟨rfl, rfl⟩

/-- Witness for the amended C6 at a concrete one-wheel set with one
extra. -/
theorem c6_capability_tables_complete_witness :
    (([wheelAppB].map (fun x => lower x.distribution)).Nodup ∧
        (∀ x ∈ [wheelAppB], '[' ∉ lower x.distribution) ∧
        (∀ x ∈ [wheelAppB], (x.extras.map lower).Nodup) ∧
        (∀ x ∈ [wheelAppB], (x.extras).Sublist x.extras) ∧
        wheelAppB ∈ [wheelAppB]) ∧
      (countOf (libKey wheelAppB)
          ((make_py_library_table (chars "pip") [wheelAppB]
            (fun x => x.extras)).map Prod.fst) = 1 ∧
        countOf (libKey wheelAppB)
          ((make_whl_filegroup_table (chars "pip") [wheelAppB]
            (fun x => x.extras)).map Prod.fst) = 1) ∧
      (∀ e ∈ (fun (x : Wheel) => x.extras) wheelAppB,
        countOf (extraKey wheelAppB e)
            ((make_py_library_table (chars "pip") [wheelAppB]
              (fun x => x.extras)).map Prod.fst) = 1 ∧
          countOf (extraKey wheelAppB e)
            ((make_whl_filegroup_table (chars "pip") [wheelAppB]
              (fun x => x.extras)).map Prod.fst) = 1) ∧
      (∀ e ∈ wheelAppB.extras, e ∉ (fun (x : Wheel) => x.extras) wheelAppB →
        countOf (extraKey wheelAppB e)
            ((make_py_library_table (chars "pip") [wheelAppB]
              (fun x => x.extras)).map Prod.fst) = 0 ∧
          countOf (extraKey wheelAppB e)
            ((make_whl_filegroup_table (chars "pip") [wheelAppB]
              (fun x => x.extras)).map Prod.fst) = 0) ∧
      ((make_py_library_table (chars "pip") [wheelAppB]
        (fun x => x.extras)).map Prod.fst).Nodup ∧
      ((make_whl_filegroup_table (chars "pip") [wheelAppB]
        (fun x => x.extras)).map Prod.fst).Nodup :=
  ⟨⟨by decide, by decide, by decide, fun x _ => List.Sublist.refl _, by decide⟩,
   c6_capability_tables_complete (chars "pip") [wheelAppB] (fun x => x.extras)
     (by decide) (by decide) (by decide) (fun x _ => List.Sublist.refl _)
     wheelAppB (by decide)⟩

/-- The extras kept by possible_extras form a sublist of the declared
extras, so the feasibility row of every wheel is an ordered
subsequence of its metadata extras (the h4 side condition above holds
for the computed map). -/
theorem possible_extras_sublist (ws : Str → Option Wheel) (fuel : Nat)
    (dist : Str) :
    ∀ l es, possible_extras ws fuel dist l = some es → es.Sublist l := by
  intro l
  induction l with
  | nil =>
    intro es h
    simp only [possible_extras, Option.some.injEq] at h
    rw [← h]
  | cons e rest ih =>
    intro es h
    cases hip : is_possible ws fuel dist (some e) with
    | none => simp [possible_extras, hip] at h
    | some b =>
      cases hpr : possible_extras ws fuel dist rest with
      | none => simp [possible_extras, hip, hpr] at h
      | some l2 =>
        simp only [possible_extras, hip, hpr, Option.some.injEq] at h
        rw [← h]
        cases b with
        | true => exact List.Sublist.cons₂ e (ih l2 hpr)
        | false => exact List.Sublist.cons e (ih l2 hpr)

/-- Every entry of the computed wheel-to-extras map pairs a wheel with an
ordered subsequence of its declared extras. -/
theorem wheel_extras_entries_sublist (ws : Str → Option Wheel) (fuel : Nat) :
    ∀ l m, wheel_extras_entries ws fuel l = some m →
      ∀ p ∈ m, p.2.Sublist p.1.extras := by
  intro l
  induction l with
  | nil =>
    intro m h p hp
    simp only [wheel_extras_entries, Option.some.injEq] at h
    rw [← h] at hp
    cases hp
  | cons w rest ih =>
    intro m h p hp
    cases hpe : possible_extras ws fuel w.distribution w.extras with
    | none => simp [wheel_extras_entries, hpe] at h
    | some es =>
      cases hre : wheel_extras_entries ws fuel rest with
      | none => simp [wheel_extras_entries, hpe, hre] at h
      | some m2 =>
        simp only [wheel_extras_entries, hpe, hre, Option.some.injEq] at h
        rw [← h] at hp
        rcases List.mem_cons.mp hp with rfl | hp2
        · exact possible_extras_sublist ws fuel w.distribution w.extras es hpe
        · exact ih m2 hre p hp2

/-- The same statement for _make_wheel_to_extras itself. -/
theorem make_wheel_to_extras_sublist (fuel : Nat) (wheels : List Wheel)
    (m : List (Wheel × List Str)) (hm : make_wheel_to_extras fuel wheels = some m) :
    ∀ p ∈ m, p.2.Sublist p.1.extras :=
  wheel_extras_entries_sublist (pypi_name_to_wheel wheels) fuel wheels m hm
